import Mathlib

/-!
Shallow embedding of `src/bin/warning-ratchet.rs` (the warning-ratchet binary
of the salt-spray repository).

The Rust program stores suppressed-lint counts in
`BTreeMap<String, BTreeMap<String, usize>>`.  We model a `BTreeMap` as an
association list with sorted insertion (`alInsert`), which reproduces the
map's lookup, in-place update, and ordered iteration behaviour.  Counts
(`usize`) are modelled as `Nat`; the counting code only ever adds small
weights, so no overflow wrapping arises.

External collaborators (the `syn` parser, the filesystem, the environment)
are modelled as explicit function parameters; everything else is translated
directly from the source.
-/

namespace WarningRatchet

/-- Lookup in an association list: the value of the first entry whose key
matches.  Models `BTreeMap::get`. -/
def alGet {α : Type} : List (String × α) → String → Option α
  | [], _ => none
  | (k, v) :: rest, key => if key = k then some v else alGet rest key

/-- Sorted insertion into an association list: replaces the first entry with
an equal key in place, otherwise inserts at the sorted position.  Models
`BTreeMap::insert` (and in-place `get_mut` updates, which keep the entry's
position). -/
def alInsert {α : Type} : List (String × α) → String → α → List (String × α)
  | [], k, v => [(k, v)]
  | (k', v') :: rest, k, v =>
    if k < k' then (k, v) :: (k', v') :: rest
    else if k = k' then (k, v) :: rest
    else (k', v') :: alInsert rest k v

/-- Models `BTreeMap::contains_key`. -/
def containsKey {α : Type} (m : List (String × α)) (k : String) : Bool :=
  (alGet m k).isSome

/-- The keys of an association list, in iteration order. -/
def alKeys {α : Type} (m : List (String × α)) : List String :=
  m.map Prod.fst

/-- One file's suppression counts: models `BTreeMap<String, usize>`. -/
abbrev LintCounts := List (String × Nat)

/-- The ledger: models `BTreeMap<String, BTreeMap<String, usize>>`. -/
abbrev Ledger := List (String × LintCounts)

/-- The effective count of a lint in a `LintCounts` map: the stored value,
or `0` when the key is absent. -/
def effL (m : LintCounts) (l : String) : Nat :=
  (alGet m l).getD 0

/-- The effective count of a file/lint pair in a ledger: the stored value,
or `0` when the file or the lint key is absent. -/
def eff (led : Ledger) (f l : String) : Nat :=
  match alGet led f with
  | some m => effL m l
  | none => 0

/-- Well-formedness delivered by `BTreeMap`: distinct file keys, and distinct
lint keys within every file entry. -/
def WFLedger (led : Ledger) : Prop :=
  (alKeys led).Nodup ∧ ∀ e ∈ led, (alKeys e.2).Nodup

instance (led : Ledger) : Decidable (WFLedger led) := by
  unfold WFLedger; infer_instance

/-- The `result.contains_key / get_mut += / insert` update of
`count_lints_in_attrs` (lines 95-99 of the source). -/
def addTo (m : LintCounts) (k : String) (v : Nat) : LintCounts :=
  match alGet m k with
  | some c => alInsert m k (c + v)
  | none => alInsert m k v

/-- A `syn::Attribute`, flattened to what `count_lints_in_attrs` inspects:
`pathIdent` is `attr.path.get_ident()` as a string; `metaList` is
`some nested` when `attr.parse_meta()` returns `Ok(Meta::List(..))`, where
each nested element is the identifier of a `NestedMeta::Meta(Meta::Path(..))`
when it has one, `none` for any other nested shape. -/
structure Attribute where
  pathIdent : Option String
  metaList : Option (List (Option String))
deriving DecidableEq

/-- The inner `for lint in lints.nested` loop of `count_lints_in_attrs`. -/
def addLints (res : LintCounts) (nested : List (Option String)) (ic : Nat) : LintCounts :=
  match nested with
  | [] => res
  | some lint :: rest => addLints (addTo res lint ic) rest ic
  | none :: rest => addLints res rest ic

/-- The `for attr in attrs` loop of `count_lints_in_attrs`, with the weight
`ic` already clamped. -/
def count_attrs_loop (res : LintCounts) (attrs : List Attribute) (ic : Nat) : LintCounts :=
  match attrs with
  | [] => res
  | attr :: rest =>
    count_attrs_loop
      (if attr.pathIdent = some "allow" then
        match attr.metaList with
        | some nested => addLints res nested ic
        | none => res
       else res) rest ic

/-- Source `count_lints_in_attrs` (lines 79-106): for every lint named in an
`allow` attribute, add `max(item_count, 1)` to its count. -/
def count_lints_in_attrs (result : LintCounts) (attrs : List Attribute)
    (item_count : Nat) : LintCounts :=
  count_attrs_loop result attrs (max item_count 1)

/-- A `syn::Item`, carrying exactly what `count_lints_in_items` inspects:
the attribute list and, for container items whose `c.items.len()` is read
(`ForeignMod`, `Impl`, `Trait` carries its items too though the source never
reads them), the number of nested items.  A `Mod` carries its recursive
content.  `verbatimI`/`otherI` are the ignored arms. -/
inductive Item where
  | constI (attrs : List Attribute)
  | enumI (attrs : List Attribute)
  | externCrateI (attrs : List Attribute)
  | fnI (attrs : List Attribute)
  | foreignModI (attrs : List Attribute) (numItems : Nat)
  | implI (attrs : List Attribute) (numItems : Nat)
  | macI (attrs : List Attribute)
  | mac2I (attrs : List Attribute)
  | modI (attrs : List Attribute) (content : Option (List Item))
  | staticI (attrs : List Attribute)
  | structI (attrs : List Attribute)
  | traitI (attrs : List Attribute) (numItems : Nat)
  | traitAliasI (attrs : List Attribute)
  | typeI (attrs : List Attribute)
  | unionI (attrs : List Attribute)
  | useI (attrs : List Attribute)
  | verbatimI
  | otherI

mutual

/-- One arm of the `match item` in source `count_lints_in_items`
(lines 108-138).  Note `Item::Trait` passes `1`, not `c.items.len()`. -/
def count_lints_in_item (result : LintCounts) : Item → LintCounts
  | .constI attrs => count_lints_in_attrs result attrs 1
  | .enumI attrs => count_lints_in_attrs result attrs 1
  | .externCrateI attrs => count_lints_in_attrs result attrs 1
  | .fnI attrs => count_lints_in_attrs result attrs 1
  | .foreignModI attrs numItems => count_lints_in_attrs result attrs numItems
  | .implI attrs numItems => count_lints_in_attrs result attrs numItems
  | .macI attrs => count_lints_in_attrs result attrs 1
  | .mac2I attrs => count_lints_in_attrs result attrs 1
  | .modI attrs (some items) =>
      count_lints_in_items (count_lints_in_attrs result attrs items.length) items
  | .modI attrs none => count_lints_in_attrs result attrs 1
  | .staticI attrs => count_lints_in_attrs result attrs 1
  | .structI attrs => count_lints_in_attrs result attrs 1
  | .traitI attrs _ => count_lints_in_attrs result attrs 1
  | .traitAliasI attrs => count_lints_in_attrs result attrs 1
  | .typeI attrs => count_lints_in_attrs result attrs 1
  | .unionI attrs => count_lints_in_attrs result attrs 1
  | .useI attrs => count_lints_in_attrs result attrs 1
  | .verbatimI => result
  | .otherI => result

/-- Source `count_lints_in_items`: the `for item in items` loop. -/
def count_lints_in_items (result : LintCounts) : List Item → LintCounts
  | [] => result
  | item :: rest => count_lints_in_items (count_lints_in_item result item) rest

end

/-- A `syn::File`: top-level attributes and items. -/
structure SynFile where
  attrs : List Attribute
  items : List Item

/-- Source `count_suppressed_lints` (lines 140-145). -/
def count_suppressed_lints (ast : SynFile) : LintCounts :=
  count_lints_in_items (count_lints_in_attrs [] ast.attrs ast.items.length) ast.items

/-- Source `enum Relationship`. -/
inductive Relationship where
  | Expected
  | ProperSubset
  | NotASubset
deriving DecidableEq

/-- Source `struct SupressedLints` (field `lints`). -/
structure SupressedLints where
  lints : Ledger
deriving DecidableEq

/-- The inner `for (lint, count) in lints` loop of pass 1 of `vis_a_vis`
(lines 184-196).  `.error r` models the early `return r`; `.ok res` models
falling through with the current value of the mutable `result`. -/
def vis_lints (olints : LintCounts) : LintCounts → Relationship →
    Except Relationship Relationship
  | [], res => .ok res
  | (lint, count) :: rest, res =>
    match alGet olints lint with
    | some ocount =>
      if count < ocount then vis_lints olints rest .ProperSubset
      else if ocount < count then .error .NotASubset
      else vis_lints olints rest res
    | none => .error .NotASubset

/-- Pass 1 of `vis_a_vis` (lines 181-201): the `for (file, lints) in
self.lints` loop, looking each file up in `other`. -/
def vis_pass1 (other : Ledger) : Ledger → Relationship →
    Except Relationship Relationship
  | [], res => .ok res
  | (file, lints) :: rest, res =>
    match alGet other file with
    | some olints =>
      match vis_lints olints lints res with
      | .error r => .error r
      | .ok res1 => vis_pass1 other rest res1
    | none =>
      if 0 < lints.length then .error .NotASubset
      else vis_pass1 other rest res

/-- The inner `for (lint, count) in olints` loop of pass 2 of `vis_a_vis`
(lines 206-211). -/
def vis_olints (lints : LintCounts) : LintCounts → Relationship → Relationship
  | [], res => res
  | (lint, count) :: rest, res =>
    if containsKey lints lint = false ∧ 0 < count then
      vis_olints lints rest .ProperSubset
    else vis_olints lints rest res

/-- Pass 2 of `vis_a_vis` (lines 203-216): the `for (ofile, olints) in
other.lints` loop; files absent from `self` are skipped (no `else`). -/
def vis_pass2 (selfL : Ledger) : Ledger → Relationship → Relationship
  | [], res => res
  | (ofile, olints) :: rest, res =>
    match alGet selfL ofile with
    | some lints => vis_pass2 selfL rest (vis_olints lints olints res)
    | none => vis_pass2 selfL rest res

/-- Source `SupressedLints::vis_a_vis` (lines 178-218): pass 1 with early
returns, then pass 2 on the surviving accumulated result. -/
def SupressedLints.vis_a_vis (self other : SupressedLints) : Relationship :=
  match vis_pass1 other.lints self.lints .Expected with
  | .error r => r
  | .ok res => vis_pass2 self.lints other.lints res

/-- One `(lint, count)` update of `shrink_around`'s inner loop
(lines 224-230): clamp to the observed count, or to `0` when the lint is
absent from the observed entry. -/
def shrinkLint (oval : LintCounts) (p : String × Nat) : String × Nat :=
  match alGet oval p.1 with
  | some ocount => (p.1, min p.2 ocount)
  | none => (p.1, 0)

/-- One `(key, val)` update of `shrink_around`'s outer `iter_mut` loop
(lines 222-234). -/
def shrinkEntry (other : Ledger) (examined_files : List String)
    (e : String × LintCounts) : String × LintCounts :=
  match alGet other e.1 with
  | some oval => (e.1, e.2.map (shrinkLint oval))
  | none => if examined_files.contains e.1 then (e.1, []) else e

/-- Source `SupressedLints::shrink_around` (lines 220-235): an in-place
`iter_mut` pass over the baseline's own entries. -/
def SupressedLints.shrink_around (self other : SupressedLints)
    (examined_files : List String) : SupressedLints :=
  ⟨self.lints.map (shrinkEntry other.lints examined_files)⟩

/-- The inner `for (lint, ocount) in oval` loop of `grow_around`
(lines 240-246). -/
def growLints : LintCounts → LintCounts → LintCounts
  | val, [] => val
  | val, (lint, ocount) :: rest =>
    match alGet val lint with
    | some count => growLints (alInsert val lint (max count ocount)) rest
    | none => growLints (alInsert val lint ocount) rest

/-- One `(okey, oval)` step of `grow_around`'s outer loop (lines 238-249). -/
def growStep (selfL : Ledger) (okey : String) (oval : LintCounts) : Ledger :=
  match alGet selfL okey with
  | some val => alInsert selfL okey (growLints val oval)
  | none => alInsert selfL okey oval

/-- The outer `for (okey, oval) in other.lints` loop of `grow_around`. -/
def growLoop : Ledger → Ledger → Ledger
  | selfL, [] => selfL
  | selfL, (okey, oval) :: rest => growLoop (growStep selfL okey oval) rest

/-- Source `SupressedLints::grow_around` (lines 237-251). -/
def SupressedLints.grow_around (self other : SupressedLints) : SupressedLints :=
  ⟨growLoop self.lints other.lints⟩

/-- `env::var("UPDATE_ANYWAY").map(|v| v == "1").unwrap_or(false)`
(line 167).  `ua` is the environment variable's value, `none` when unset. -/
def updateAnywaySet (ua : Option String) : Bool :=
  match ua with
  | some v => v == "1"
  | none => false

/-- What `main` leaves behind: the ledger handed to `sweep_under_therug`
(if any) and the process exit code. -/
structure MainOutcome where
  persisted : Option SupressedLints
  exitCode : Nat
deriving DecidableEq

/-- The `match observed.vis_a_vis(&expected)` block of `main`
(lines 154-173): `Expected` falls through (exit 0, nothing written);
`ProperSubset` shrinks, persists and exits 2; `NotASubset` grows and
persists only under the override, and exits 1 either way. -/
def mainUpdate (observed expected : SupressedLints)
    (relevant_files : List String) (ua : Option String) : MainOutcome :=
  match observed.vis_a_vis expected with
  | .Expected => ⟨none, 0⟩
  | .ProperSubset =>
    ⟨some (expected.shrink_around observed relevant_files), 2⟩
  | .NotASubset =>
    if updateAnywaySet ua then ⟨some (expected.grow_around observed), 1⟩
    else ⟨none, 1⟩

/-- The panic message `Result::unwrap` produces on an `Err` (the `.unwrap()`
on `syn::parse_file` at line 255): the standard-library text followed by the
`Debug` rendering of the error.  Note it mentions no file name. -/
def unwrapPanicMsg (e : String) : String :=
  "called `Result::unwrap()` on an `Err` value: " ++ e

/-- The file-name component of a path: the characters after the last `/`.
Models `Path::file_name` for ordinary path strings. -/
def fileNameOf (s : List Char) : List Char :=
  (s.reverse.takeWhile (fun c => c ≠ '/')).reverse

/-- `Path::extension` on a file name: the part after the last `.`; `none`
when there is no `.`, or when the only `.` is the leading character. -/
def extensionOf (fn : List Char) : Option (List Char) :=
  let revfn := fn.reverse
  let revext := revfn.takeWhile (fun c => c ≠ '.')
  if revext.length = revfn.length then none
  else if revfn.drop (revext.length + 1) = [] then none
  else some revext.reverse

/-- `Path::new(name).extension().map(|e| e == "rs").unwrap_or(false)`
(line 71). -/
def extIsRs (name : String) : Bool :=
  match extensionOf (fileNameOf name.data) with
  | some e => e = ['r', 's']
  | none => false

/-- Source `SupressedLints::load_suppressed_lints_from` (lines 253-258).
`fs` models `read_file` (the filesystem); `parse` models
`syn::parse_file`, returning the `Debug` rendering of the `syn::Error` on
failure.  A parse failure is the `unwrap` panic, which aborts the whole
process: modelled as `.error` with the panic message. -/
def SupressedLints.load_suppressed_lints_from (self : SupressedLints)
    (fs : String → Option String) (parse : String → Except String SynFile)
    (filename : String) : Except String SupressedLints :=
  match fs filename with
  | some contents =>
    match parse contents with
    | .ok ast => .ok ⟨alInsert self.lints filename (count_suppressed_lints ast)⟩
    | .error e => .error (unwrapPanicMsg e)
  | none => .ok self

/-- Source `find_supressed_lints` (lines 68-76): scan the `.rs` files in
order, accumulating into one ledger; a panic while scanning one file stops
everything after it. -/
def find_supressed_lints (fs : String → Option String)
    (parse : String → Except String SynFile) :
    List String → SupressedLints → Except String SupressedLints
  | [], acc => .ok acc
  | name :: rest, acc =>
    if extIsRs name then
      match acc.load_suppressed_lints_from fs parse name with
      | .ok acc1 => find_supressed_lints fs parse rest acc1
      | .error e => .error e
    else find_supressed_lints fs parse rest acc

/-- Source `main` (lines 147-174), with the baseline (`look_under_therug`)
and the environment passed in explicitly: scan the given files, then compare
and update.  A scan panic (`.error`) aborts before any comparison and before
anything is persisted. -/
def mainModel (fs : String → Option String)
    (parse : String → Except String SynFile) (relevant_files : List String)
    (baseline : SupressedLints) (ua : Option String) :
    Except String MainOutcome :=
  match find_supressed_lints fs parse relevant_files ⟨[]⟩ with
  | .error e => .error e
  | .ok observed => .ok (mainUpdate observed baseline relevant_files ua)

/-- Whether the list `needle` occurs at the head of `hay`. -/
def leadsList : List Char → List Char → Bool
  | [], _ => true
  | _ :: _, [] => false
  | a :: as, b :: bs => if a = b then leadsList as bs else false

/-- Whether the list `needle` occurs contiguously anywhere in `hay`. -/
def occursIn (needle : List Char) : List Char → Bool
  | [] => leadsList needle []
  | b :: bs => leadsList needle (b :: bs) || occursIn needle bs

/-- Substring occurrence, used to state what a panic message mentions. -/
def strOccurs (needle hay : String) : Bool :=
  occursIn needle.data hay.data

/-! ### Specification-side counting

`specCountFile` is the blast-radius weighted count as §4.1 of the
specification describes it, written independently of the imperative
accumulation above so that the scanner can be compared against it.  It
follows the source's weight table (in particular `Trait` weighs `1`; the
specification's claim that trait blocks weigh their child count is settled
separately). -/

/-- How many times the `allow` attributes in `attrs` name the lint `l`. -/
def allowCount : List Attribute → String → Nat
  | [], _ => 0
  | attr :: rest, l =>
    (if attr.pathIdent = some "allow" then
      match attr.metaList with
      | some nested => nested.count (some l)
      | none => 0
     else 0) + allowCount rest l

mutual

/-- Weighted contribution of one item (and, for an inline module, its
descendants) to the count of lint `l`. -/
def specCountItem (l : String) : Item → Nat
  | .constI attrs => allowCount attrs l
  | .enumI attrs => allowCount attrs l
  | .externCrateI attrs => allowCount attrs l
  | .fnI attrs => allowCount attrs l
  | .foreignModI attrs numItems => max numItems 1 * allowCount attrs l
  | .implI attrs numItems => max numItems 1 * allowCount attrs l
  | .macI attrs => allowCount attrs l
  | .mac2I attrs => allowCount attrs l
  | .modI attrs (some items) =>
      max items.length 1 * allowCount attrs l + specCountItems l items
  | .modI attrs none => allowCount attrs l
  | .staticI attrs => allowCount attrs l
  | .structI attrs => allowCount attrs l
  | .traitI attrs _ => allowCount attrs l
  | .traitAliasI attrs => allowCount attrs l
  | .typeI attrs => allowCount attrs l
  | .unionI attrs => allowCount attrs l
  | .useI attrs => allowCount attrs l
  | .verbatimI => 0
  | .otherI => 0

/-- Weighted contribution of a list of items to the count of lint `l`. -/
def specCountItems (l : String) : List Item → Nat
  | [] => 0
  | item :: rest => specCountItem l item + specCountItems l rest

end

/-- The specification's per-file count of lint `l`: the top-level attribute
list weighs the number of top-level items, then every item contributes. -/
def specCountFile (ast : SynFile) (l : String) : Nat :=
  max ast.items.length 1 * allowCount ast.attrs l + specCountItems l ast.items

/-! ### Association-list lemmas -/

theorem alGet_alInsert {α : Type} (m : List (String × α)) (k : String) (v : α)
    (l : String) :
    alGet (alInsert m k v) l = if l = k then some v else alGet m l := by
  induction m with
  | nil => simp [alInsert, alGet]
  | cons e rest ih =>
    obtain ⟨k', v'⟩ := e
    by_cases hlt : k < k'
    · simp only [alInsert, if_pos hlt]
      by_cases hlk : l = k
      · simp [alGet, hlk]
      · simp [alGet, hlk]
    · by_cases heq : k = k'
      · subst heq
        simp only [alInsert, if_neg hlt, if_pos rfl]
        by_cases hlk : l = k
        · simp [alGet, hlk]
        · simp [alGet, hlk]
      · simp only [alInsert, if_neg hlt, if_neg heq]
        by_cases hlk' : l = k'
        · subst hlk'
          have : ¬ l = k := fun h => heq h.symm
          simp [alGet, this]
        · simp [alGet, hlk', ih]

theorem effL_addTo (m : LintCounts) (k : String) (v : Nat) (l : String) :
    effL (addTo m k v) l = effL m l + (if l = k then v else 0) := by
  unfold addTo
  cases hm : alGet m k with
  | some c =>
    by_cases hlk : l = k
    · subst hlk; simp [effL, alGet_alInsert, hm]
    · simp [effL, alGet_alInsert, hlk]
  | none =>
    by_cases hlk : l = k
    · subst hlk; simp [effL, alGet_alInsert, hm]
    · simp [effL, alGet_alInsert, hlk]

theorem mem_alInsert {α : Type} (m : List (String × α)) (k : String) (v : α)
    (p : String × α) (hp : p ∈ alInsert m k v) : p = (k, v) ∨ p ∈ m := by
  induction m with
  | nil => simpa [alInsert] using hp
  | cons e rest ih =>
    obtain ⟨k', v'⟩ := e
    by_cases hlt : k < k'
    · simp only [alInsert, if_pos hlt] at hp
      rcases List.mem_cons.1 hp with h | h
      · exact Or.inl h
      · exact Or.inr h
    · by_cases heq : k = k'
      · subst heq
        simp only [alInsert, if_neg hlt, if_pos rfl] at hp
        rcases List.mem_cons.1 hp with h | h
        · exact Or.inl h
        · exact Or.inr (List.mem_cons_of_mem _ h)
      · simp only [alInsert, if_neg hlt, if_neg heq] at hp
        rcases List.mem_cons.1 hp with h | h
        · exact Or.inr (by simp [h])
        · rcases ih h with h1 | h1
          · exact Or.inl h1
          · exact Or.inr (List.mem_cons_of_mem _ h1)

theorem alGet_eq_none_iff {α : Type} (m : List (String × α)) (k : String) :
    alGet m k = none ↔ k ∉ alKeys m := by
  induction m with
  | nil => simp [alGet, alKeys]
  | cons e rest ih =>
    obtain ⟨k', v'⟩ := e
    by_cases hk : k = k'
    · subst hk
      simp only [alGet, if_pos rfl, alKeys, List.map_cons, List.mem_cons]
      simp
    · simp only [alGet, if_neg hk, ih, alKeys, List.map_cons, List.mem_cons]
      tauto

theorem alGet_of_nodup_mem {α : Type} (m : List (String × α))
    (hnd : (alKeys m).Nodup) (p : String × α) (hp : p ∈ m) :
    alGet m p.1 = some p.2 := by
  induction m with
  | nil => cases hp
  | cons e rest ih =>
    obtain ⟨k', v'⟩ := e
    simp only [alKeys, List.map_cons, List.nodup_cons] at hnd
    rcases List.mem_cons.1 hp with h | h
    · subst h; simp [alGet]
    · have hne : p.1 ≠ k' := by
        intro hcontra
        exact hnd.1 (hcontra ▸ List.mem_map_of_mem Prod.fst h)
      simp only [alGet, if_neg hne]
      exact ih hnd.2 h

/-! ### Scanner refinement lemmas -/

theorem effL_addLints (nested : List (Option String)) (res : LintCounts)
    (ic : Nat) (l : String) :
    effL (addLints res nested ic) l = effL res l + ic * nested.count (some l) := by
  induction nested generalizing res with
  | nil => simp [addLints]
  | cons o rest ih =>
    cases o with
    | some lint =>
      simp only [addLints, ih, effL_addTo]
      rw [List.count_cons]
      by_cases hl : l = lint
      · subst hl
        simp only [if_pos rfl, beq_self_eq_true, if_pos]
        ring
      · have hne : lint ≠ l := fun h => hl h.symm
        have hbeq : (some lint == some l) = false :=
          beq_eq_false_iff_ne.mpr (by simp [hne])
        simp [hl, hbeq]
    | none =>
      simp only [addLints, ih]
      rw [List.count_cons]
      simp

theorem effL_count_attrs_loop (attrs : List Attribute) (res : LintCounts)
    (ic : Nat) (l : String) :
    effL (count_attrs_loop res attrs ic) l = effL res l + ic * allowCount attrs l := by
  induction attrs generalizing res with
  | nil => simp [count_attrs_loop, allowCount]
  | cons attr rest ih =>
    simp only [count_attrs_loop, allowCount, ih]
    by_cases ha : attr.pathIdent = some "allow"
    · rw [if_pos ha, if_pos ha]
      cases hm : attr.metaList with
      | some nested =>
        simp only [effL_addLints]
        ring
      | none => simp
    · rw [if_neg ha, if_neg ha]
      simp

theorem effL_count_lints_in_attrs (attrs : List Attribute) (res : LintCounts)
    (ic : Nat) (l : String) :
    effL (count_lints_in_attrs res attrs ic) l =
      effL res l + max ic 1 * allowCount attrs l :=
  effL_count_attrs_loop attrs res (max ic 1) l

mutual

theorem effL_count_item (item : Item) (res : LintCounts) (l : String) :
    effL (count_lints_in_item res item) l = effL res l + specCountItem l item := by
  cases item with
  | constI attrs =>
    simp [count_lints_in_item, specCountItem, effL_count_lints_in_attrs]
  | enumI attrs =>
    simp [count_lints_in_item, specCountItem, effL_count_lints_in_attrs]
  | externCrateI attrs =>
    simp [count_lints_in_item, specCountItem, effL_count_lints_in_attrs]
  | fnI attrs =>
    simp [count_lints_in_item, specCountItem, effL_count_lints_in_attrs]
  | foreignModI attrs numItems =>
    simp [count_lints_in_item, specCountItem, effL_count_lints_in_attrs]
  | implI attrs numItems =>
    simp [count_lints_in_item, specCountItem, effL_count_lints_in_attrs]
  | macI attrs =>
    simp [count_lints_in_item, specCountItem, effL_count_lints_in_attrs]
  | mac2I attrs =>
    simp [count_lints_in_item, specCountItem, effL_count_lints_in_attrs]
  | modI attrs content =>
    cases content with
    | some items =>
      simp only [count_lints_in_item, specCountItem,
        effL_count_items items, effL_count_lints_in_attrs]
      ring
    | none =>
      simp [count_lints_in_item, specCountItem, effL_count_lints_in_attrs]
  | staticI attrs =>
    simp [count_lints_in_item, specCountItem, effL_count_lints_in_attrs]
  | structI attrs =>
    simp [count_lints_in_item, specCountItem, effL_count_lints_in_attrs]
  | traitI attrs numItems =>
    simp [count_lints_in_item, specCountItem, effL_count_lints_in_attrs]
  | traitAliasI attrs =>
    simp [count_lints_in_item, specCountItem, effL_count_lints_in_attrs]
  | typeI attrs =>
    simp [count_lints_in_item, specCountItem, effL_count_lints_in_attrs]
  | unionI attrs =>
    simp [count_lints_in_item, specCountItem, effL_count_lints_in_attrs]
  | useI attrs =>
    simp [count_lints_in_item, specCountItem, effL_count_lints_in_attrs]
  | verbatimI => simp [count_lints_in_item, specCountItem]
  | otherI => simp [count_lints_in_item, specCountItem]

theorem effL_count_items (items : List Item) (res : LintCounts) (l : String) :
    effL (count_lints_in_items res items) l = effL res l + specCountItems l items := by
  cases items with
  | nil => simp [count_lints_in_items, specCountItems]
  | cons item rest =>
    simp only [count_lints_in_items, specCountItems,
      effL_count_items rest, effL_count_item item]
    ring

end

theorem effL_count_suppressed_lints (ast : SynFile) (l : String) :
    effL (count_suppressed_lints ast) l = specCountFile ast l := by
  unfold count_suppressed_lints specCountFile
  rw [effL_count_items, effL_count_lints_in_attrs]
  simp [effL, alGet]

/-! ### Positivity of recorded counts -/

/-- Every count stored in the map is at least `1`. -/
def allPos (m : LintCounts) : Prop := ∀ p ∈ m, 1 ≤ p.2

theorem allPos_alInsert (m : LintCounts) (k : String) (v : Nat) (hv : 1 ≤ v)
    (hm : allPos m) : allPos (alInsert m k v) := by
  intro p hp
  rcases mem_alInsert m k v p hp with h | h
  · rw [h]; exact hv
  · exact hm p h

theorem allPos_addTo (m : LintCounts) (k : String) (v : Nat) (hv : 1 ≤ v)
    (hm : allPos m) : allPos (addTo m k v) := by
  unfold addTo
  cases alGet m k with
  | some c => exact allPos_alInsert m k _ (le_trans hv (Nat.le_add_left v c)) hm
  | none => exact allPos_alInsert m k v hv hm

theorem allPos_addLints (nested : List (Option String)) (res : LintCounts)
    (ic : Nat) (hic : 1 ≤ ic) (hm : allPos res) : allPos (addLints res nested ic) := by
  induction nested generalizing res with
  | nil => exact hm
  | cons o rest ih =>
    cases o with
    | some lint => exact ih (addTo res lint ic) (allPos_addTo res lint ic hic hm)
    | none => exact ih res hm

theorem allPos_count_attrs_loop (attrs : List Attribute) (res : LintCounts)
    (ic : Nat) (hic : 1 ≤ ic) (hm : allPos res) : allPos (count_attrs_loop res attrs ic) := by
  induction attrs generalizing res with
  | nil => exact hm
  | cons attr rest ih =>
    simp only [count_attrs_loop]
    apply ih
    by_cases ha : attr.pathIdent = some "allow"
    · rw [if_pos ha]
      cases attr.metaList with
      | some nested => exact allPos_addLints nested res ic hic hm
      | none => exact hm
    · rw [if_neg ha]; exact hm

theorem allPos_count_lints_in_attrs (attrs : List Attribute) (res : LintCounts)
    (ic : Nat) (hm : allPos res) : allPos (count_lints_in_attrs res attrs ic) :=
  allPos_count_attrs_loop attrs res (max ic 1) (Nat.le_max_right ic 1) hm

mutual

theorem allPos_count_item (item : Item) (res : LintCounts) (hm : allPos res) :
    allPos (count_lints_in_item res item) := by
  cases item with
  | constI attrs => exact allPos_count_lints_in_attrs attrs res 1 hm
  | enumI attrs => exact allPos_count_lints_in_attrs attrs res 1 hm
  | externCrateI attrs => exact allPos_count_lints_in_attrs attrs res 1 hm
  | fnI attrs => exact allPos_count_lints_in_attrs attrs res 1 hm
  | foreignModI attrs numItems => exact allPos_count_lints_in_attrs attrs res numItems hm
  | implI attrs numItems => exact allPos_count_lints_in_attrs attrs res numItems hm
  | macI attrs => exact allPos_count_lints_in_attrs attrs res 1 hm
  | mac2I attrs => exact allPos_count_lints_in_attrs attrs res 1 hm
  | modI attrs content =>
    cases content with
    | some items =>
      exact allPos_count_items items _
        (allPos_count_lints_in_attrs attrs res items.length hm)
    | none => exact allPos_count_lints_in_attrs attrs res 1 hm
  | staticI attrs => exact allPos_count_lints_in_attrs attrs res 1 hm
  | structI attrs => exact allPos_count_lints_in_attrs attrs res 1 hm
  | traitI attrs numItems => exact allPos_count_lints_in_attrs attrs res 1 hm
  | traitAliasI attrs => exact allPos_count_lints_in_attrs attrs res 1 hm
  | typeI attrs => exact allPos_count_lints_in_attrs attrs res 1 hm
  | unionI attrs => exact allPos_count_lints_in_attrs attrs res 1 hm
  | useI attrs => exact allPos_count_lints_in_attrs attrs res 1 hm
  | verbatimI => exact hm
  | otherI => exact hm

theorem allPos_count_items (items : List Item) (res : LintCounts) (hm : allPos res) :
    allPos (count_lints_in_items res items) := by
  cases items with
  | nil => exact hm
  | cons item rest =>
    exact allPos_count_items rest _ (allPos_count_item item res hm)

end

theorem mem_of_alGet {α : Type} (m : List (String × α)) (k : String) (v : α)
    (h : alGet m k = some v) : (k, v) ∈ m := by
  induction m with
  | nil => simp [alGet] at h
  | cons e rest ih =>
    obtain ⟨k', v'⟩ := e
    by_cases hk : k = k'
    · subst hk
      have hv : v' = v := by simpa [alGet] using h
      subst hv
      exact List.mem_cons_self _ _
    · simp only [alGet, if_neg hk] at h
      exact List.mem_cons_of_mem _ (ih h)

theorem allPos_count_suppressed_lints (ast : SynFile) :
    allPos (count_suppressed_lints ast) := by
  apply allPos_count_items
  apply allPos_count_lints_in_attrs
  intro p hp
  simp at hp

/-! ### Analyzer lemmas -/

/-- A pass-1 violation: the observed count is positive while the baseline
lacks the file or the lint, or the observed count strictly exceeds the
baseline count. -/
def violationAt (baseL : Ledger) (f l : String) (c : Nat) : Prop :=
  (0 < c ∧ (alGet baseL f = none ∨ ∃ m, alGet baseL f = some m ∧ alGet m l = none)) ∨
  (∃ m oc, alGet baseL f = some m ∧ alGet m l = some oc ∧ oc < c)

theorem vis_lints_ok_of_le (olints : LintCounts) (ls : LintCounts)
    (h : ∀ lc ∈ ls, ∃ oc, alGet olints lc.1 = some oc ∧ lc.2 ≤ oc)
    (res : Relationship) :
    ∃ res1, vis_lints olints ls res = .ok res1 ∧
      (res1 = res ∨ res1 = .ProperSubset) := by
  induction ls generalizing res with
  | nil => exact ⟨res, rfl, Or.inl rfl⟩
  | cons lc rest ih =>
    obtain ⟨l, c⟩ := lc
    obtain ⟨oc, hoc, hle⟩ := h (l, c) (List.mem_cons_self _ _)
    have hrest : ∀ lc ∈ rest, ∃ oc, alGet olints lc.1 = some oc ∧ lc.2 ≤ oc :=
      fun lc hlc => h lc (List.mem_cons_of_mem _ hlc)
    simp only [vis_lints, hoc]
    by_cases hlt : c < oc
    · rw [if_pos hlt]
      obtain ⟨res1, heq, hres⟩ := ih hrest .ProperSubset
      exact ⟨res1, heq, Or.inr (hres.elim id id)⟩
    · rw [if_neg hlt, if_neg (by omega)]
      exact ih hrest res

theorem vis_pass1_ok_of_le (baseL : Ledger) (obsL : Ledger)
    (h : ∀ fe ∈ obsL, ∀ lc ∈ fe.2,
      ∃ m oc, alGet baseL fe.1 = some m ∧ alGet m lc.1 = some oc ∧ lc.2 ≤ oc)
    (res : Relationship) :
    ∃ res1, vis_pass1 baseL obsL res = .ok res1 ∧
      (res1 = res ∨ res1 = .ProperSubset) := by
  induction obsL generalizing res with
  | nil => exact ⟨res, rfl, Or.inl rfl⟩
  | cons fe rest ih =>
    obtain ⟨f, ls⟩ := fe
    have hrest : ∀ fe ∈ rest, ∀ lc ∈ fe.2,
        ∃ m oc, alGet baseL fe.1 = some m ∧ alGet m lc.1 = some oc ∧ lc.2 ≤ oc :=
      fun fe hfe => h fe (List.mem_cons_of_mem _ hfe)
    cases hb : alGet baseL f with
    | some m =>
      have hls : ∀ lc ∈ ls, ∃ oc, alGet m lc.1 = some oc ∧ lc.2 ≤ oc := by
        intro lc hlc
        obtain ⟨m1, oc, hm1, hoc, hle⟩ := h (f, ls) (List.mem_cons_self _ _) lc hlc
        rw [hb] at hm1
        obtain rfl : m = m1 := by injection hm1
        exact ⟨oc, hoc, hle⟩
      obtain ⟨res1, heq1, hres1⟩ := vis_lints_ok_of_le m ls hls res
      simp only [vis_pass1, hb, heq1]
      obtain ⟨res2, heq2, hres2⟩ := ih hrest res1
      refine ⟨res2, heq2, ?_⟩
      rcases hres2 with h2 | h2
      · subst h2; exact hres1
      · exact Or.inr h2
    | none =>
      cases ls with
      | nil =>
        simp only [vis_pass1, hb, List.length_nil]
        simpa using ih hrest res
      | cons lc0 ls0 =>
        obtain ⟨m1, oc, hm1, _, _⟩ :=
          h (f, lc0 :: ls0) (List.mem_cons_self _ _) lc0 (List.mem_cons_self _ _)
        rw [hb] at hm1
        cases hm1

theorem vis_olints_range (lints : LintCounts) (olints : LintCounts)
    (res : Relationship) :
    vis_olints lints olints res = res ∨ vis_olints lints olints res = .ProperSubset := by
  induction olints generalizing res with
  | nil => exact Or.inl rfl
  | cons lc rest ih =>
    obtain ⟨l, c⟩ := lc
    simp only [vis_olints]
    by_cases hcond : containsKey lints l = false ∧ 0 < c
    · rw [if_pos hcond]
      exact Or.inr ((ih .ProperSubset).elim id id)
    · rw [if_neg hcond]
      exact ih res

theorem vis_pass2_range (selfL : Ledger) (otherL : Ledger) (res : Relationship) :
    vis_pass2 selfL otherL res = res ∨ vis_pass2 selfL otherL res = .ProperSubset := by
  induction otherL generalizing res with
  | nil => exact Or.inl rfl
  | cons fe rest ih =>
    obtain ⟨ofile, olints⟩ := fe
    cases hget : alGet selfL ofile with
    | some lints =>
      simp only [vis_pass2, hget]
      rcases ih (vis_olints lints olints res) with h | h
      · rw [h]
        exact vis_olints_range lints olints res
      · exact Or.inr h
    | none =>
      simp only [vis_pass2, hget]
      exact ih res

theorem vis_lints_error_eq (olints : LintCounts) (ls : LintCounts)
    (res : Relationship) (r : Relationship)
    (h : vis_lints olints ls res = .error r) : r = .NotASubset := by
  induction ls generalizing res with
  | nil => cases h
  | cons lc rest ih =>
    obtain ⟨l, c⟩ := lc
    cases hoc : alGet olints l with
    | some oc =>
      simp only [vis_lints, hoc] at h
      by_cases hlt : c < oc
      · rw [if_pos hlt] at h
        exact ih .ProperSubset h
      · rw [if_neg hlt] at h
        by_cases hgt : oc < c
        · rw [if_pos hgt] at h
          injection h with h1
          exact h1.symm
        · rw [if_neg hgt] at h
          exact ih res h
    | none =>
      simp only [vis_lints, hoc] at h
      injection h with h1
      exact h1.symm

theorem vis_lints_error_of_violation (olints : LintCounts) (ls : LintCounts)
    (h : ∃ lc ∈ ls, alGet olints lc.1 = none ∨
      ∃ oc, alGet olints lc.1 = some oc ∧ oc < lc.2)
    (res : Relationship) :
    vis_lints olints ls res = .error .NotASubset := by
  induction ls generalizing res with
  | nil => simp at h
  | cons lc0 rest ih =>
    obtain ⟨l0, c0⟩ := lc0
    cases hoc : alGet olints l0 with
    | some oc0 =>
      simp only [vis_lints, hoc]
      by_cases hlt : c0 < oc0
      · rw [if_pos hlt]
        apply ih
        obtain ⟨lc, hlc, hviol⟩ := h
        rcases List.mem_cons.1 hlc with heq | hmem
        · exfalso
          subst heq
          rcases hviol with h1 | ⟨oc, hoc1, hlt1⟩
          · rw [hoc] at h1; cases h1
          · rw [hoc] at hoc1
            injection hoc1 with h2
            omega
        · exact ⟨lc, hmem, hviol⟩
      · by_cases hgt : oc0 < c0
        · rw [if_neg hlt, if_pos hgt]
        · rw [if_neg hlt, if_neg hgt]
          apply ih
          obtain ⟨lc, hlc, hviol⟩ := h
          rcases List.mem_cons.1 hlc with heq | hmem
          · exfalso
            subst heq
            rcases hviol with h1 | ⟨oc, hoc1, hlt1⟩
            · rw [hoc] at h1; cases h1
            · rw [hoc] at hoc1
              injection hoc1 with h2
              omega
          · exact ⟨lc, hmem, hviol⟩
    | none => simp only [vis_lints, hoc]

theorem vis_pass1_error_of_violation (baseL : Ledger) (obsL : Ledger)
    (h : ∃ fe ∈ obsL, ∃ lc ∈ fe.2, violationAt baseL fe.1 lc.1 lc.2)
    (res : Relationship) :
    vis_pass1 baseL obsL res = .error .NotASubset := by
  induction obsL generalizing res with
  | nil => simp at h
  | cons fe0 rest ih =>
    obtain ⟨f0, ls0⟩ := fe0
    cases hb : alGet baseL f0 with
    | some m =>
      cases hv : vis_lints m ls0 res with
      | error r =>
        simp only [vis_pass1, hb, hv]
        rw [vis_lints_error_eq m ls0 res r hv]
      | ok res1 =>
        simp only [vis_pass1, hb, hv]
        apply ih
        obtain ⟨fe, hfe, lc, hlc, hviol⟩ := h
        rcases List.mem_cons.1 hfe with heq | hmem
        · exfalso
          subst heq
          have : vis_lints m ls0 res = .error .NotASubset := by
            apply vis_lints_error_of_violation
            refine ⟨lc, hlc, ?_⟩
            rcases hviol with ⟨_, h1 | ⟨m1, hm1, hl1⟩⟩ | ⟨m1, oc, hm1, hoc, hlt⟩
            · rw [hb] at h1; cases h1
            · rw [hb] at hm1
              obtain rfl : m = m1 := by injection hm1
              exact Or.inl hl1
            · rw [hb] at hm1
              obtain rfl : m = m1 := by injection hm1
              exact Or.inr ⟨oc, hoc, hlt⟩
          rw [this] at hv
          cases hv
        · exact ⟨fe, hmem, lc, hlc, hviol⟩
    | none =>
      cases hl : ls0 with
      | nil =>
        simp only [vis_pass1, hb, List.length_nil]
        rw [if_neg (by omega)]
        apply ih
        obtain ⟨fe, hfe, lc, hlc, hviol⟩ := h
        rcases List.mem_cons.1 hfe with heq | hmem
        · exfalso
          subst heq
          rw [hl] at hlc
          cases hlc
        · exact ⟨fe, hmem, lc, hlc, hviol⟩
      | cons a b =>
        simp only [vis_pass1, hb]
        rw [if_pos (by simp)]

theorem alGet_cons {α : Type} (p : String × α) (rest : List (String × α))
    (k : String) :
    alGet (p :: rest) k = if k = p.1 then some p.2 else alGet rest k := by
  obtain ⟨a, b⟩ := p
  rfl

theorem eff_cons (k : String) (m : LintCounts) (rest : Ledger) (f l : String) :
    eff ((k, m) :: rest) f l = if f = k then effL m l else eff rest f l := by
  by_cases hf : f = k
  · simp [eff, alGet, hf]
  · simp [eff, alGet, hf]

theorem eff_nil (f l : String) : eff [] f l = 0 := rfl

theorem mem_alKeys_of_alGet {α : Type} (m : List (String × α)) (k : String)
    (v : α) (h : alGet m k = some v) : k ∈ alKeys m :=
  List.mem_map_of_mem Prod.fst (mem_of_alGet m k v h)

theorem alGet_map_keyfix {α : Type} (t : String × α → String × α)
    (ht : ∀ e, (t e).1 = e.1) (m : List (String × α)) (k : String) :
    alGet (m.map t) k = (alGet m k).map (fun v => (t (k, v)).2) := by
  induction m with
  | nil => simp [alGet]
  | cons p rest ih =>
    simp only [List.map_cons, alGet_cons, ht p, ih]
    by_cases hk : k = p.1
    · rw [if_pos hk, if_pos hk]
      subst hk
      simp
    · rw [if_neg hk, if_neg hk]

theorem alGet_append_skip {α : Type} (pre post : List (String × α)) (b : String)
    (x : α) (k : String) (hk : k ≠ b) :
    alGet (pre ++ (b, x) :: post) k = alGet (pre ++ post) k := by
  induction pre with
  | nil => simp [alGet_cons, hk]
  | cons p pre1 ih =>
    simp only [List.cons_append, alGet_cons]
    by_cases hkp : k = p.1
    · rw [if_pos hkp, if_pos hkp]
    · rw [if_neg hkp, if_neg hkp, ih]

theorem vis_lints_ok_of_eq (olints : LintCounts) (ls : LintCounts)
    (h : ∀ lc ∈ ls, alGet olints lc.1 = some lc.2) (res : Relationship) :
    vis_lints olints ls res = .ok res := by
  induction ls generalizing res with
  | nil => rfl
  | cons lc rest ih =>
    obtain ⟨l, c⟩ := lc
    have hoc := h (l, c) (List.mem_cons_self _ _)
    simp only [vis_lints, hoc]
    rw [if_neg (lt_irrefl c), if_neg (lt_irrefl c)]
    exact ih (fun lc hlc => h lc (List.mem_cons_of_mem _ hlc)) res

theorem vis_lints_ok_le (olints : LintCounts) (ls : LintCounts)
    (res res1 : Relationship) (h : vis_lints olints ls res = .ok res1) :
    ∀ lc ∈ ls, ∃ oc, alGet olints lc.1 = some oc ∧ lc.2 ≤ oc := by
  induction ls generalizing res with
  | nil => intro lc hlc; cases hlc
  | cons lc0 rest ih =>
    obtain ⟨l0, c0⟩ := lc0
    intro lc hlc
    cases hoc : alGet olints l0 with
    | some oc0 =>
      simp only [vis_lints, hoc] at h
      by_cases hlt : c0 < oc0
      · rw [if_pos hlt] at h
        rcases List.mem_cons.1 hlc with heq | hmem
        · subst heq; exact ⟨oc0, hoc, le_of_lt hlt⟩
        · exact ih .ProperSubset h lc hmem
      · by_cases hgt : oc0 < c0
        · rw [if_neg hlt, if_pos hgt] at h
          cases h
        · rw [if_neg hlt, if_neg hgt] at h
          rcases List.mem_cons.1 hlc with heq | hmem
          · subst heq; exact ⟨oc0, hoc, by omega⟩
          · exact ih res h lc hmem
    | none =>
      simp only [vis_lints, hoc] at h
      cases h

theorem vis_pass1_ok_inv (baseL : Ledger) (obsL : Ledger)
    (res res1 : Relationship) (h : vis_pass1 baseL obsL res = .ok res1) :
    ∀ fe ∈ obsL,
      (∃ m, alGet baseL fe.1 = some m ∧
        ∀ lc ∈ fe.2, ∃ oc, alGet m lc.1 = some oc ∧ lc.2 ≤ oc) ∨
      (alGet baseL fe.1 = none ∧ fe.2 = []) := by
  induction obsL generalizing res with
  | nil => intro fe hfe; cases hfe
  | cons fe0 rest ih =>
    obtain ⟨f0, ls0⟩ := fe0
    intro fe hfe
    cases hb : alGet baseL f0 with
    | some m =>
      cases hv : vis_lints m ls0 res with
      | error r =>
        simp only [vis_pass1, hb, hv] at h
        cases h
      | ok res2 =>
        simp only [vis_pass1, hb, hv] at h
        rcases List.mem_cons.1 hfe with heq | hmem
        · subst heq
          exact Or.inl ⟨m, hb, vis_lints_ok_le m ls0 res res2 hv⟩
        · exact ih res2 h fe hmem
    | none =>
      cases ls0 with
      | nil =>
        simp only [vis_pass1, hb, List.length_nil] at h
        rw [if_neg (by omega)] at h
        rcases List.mem_cons.1 hfe with heq | hmem
        · subst heq
          exact Or.inr ⟨hb, rfl⟩
        · exact ih res h fe hmem
      | cons a b =>
        simp only [vis_pass1, hb] at h
        rw [if_pos (by simp)] at h
        cases h

theorem vis_pass1_congr (b1 b2 : Ledger) (obsL : Ledger)
    (h : ∀ fe ∈ obsL, alGet b1 fe.1 = alGet b2 fe.1) (res : Relationship) :
    vis_pass1 b1 obsL res = vis_pass1 b2 obsL res := by
  induction obsL generalizing res with
  | nil => rfl
  | cons fe0 rest ih =>
    obtain ⟨f0, ls0⟩ := fe0
    have hf := h (f0, ls0) (List.mem_cons_self _ _)
    have hrest : ∀ fe ∈ rest, alGet b1 fe.1 = alGet b2 fe.1 :=
      fun fe hfe => h fe (List.mem_cons_of_mem _ hfe)
    cases hb : alGet b1 f0 with
    | some m =>
      have hb2 : alGet b2 f0 = some m := by rw [← hf]; exact hb
      simp only [vis_pass1, hb, hb2]
      cases vis_lints m ls0 res with
      | error r => rfl
      | ok res2 => exact ih hrest res2
    | none =>
      have hb2 : alGet b2 f0 = none := by rw [← hf]; exact hb
      simp only [vis_pass1, hb, hb2]
      by_cases hlen : 0 < ls0.length
      · rw [if_pos hlen, if_pos hlen]
      · rw [if_neg hlen, if_neg hlen]
        exact ih hrest res

theorem vis_pass2_append (selfL : Ledger) (xs ys : Ledger) (res : Relationship) :
    vis_pass2 selfL (xs ++ ys) res = vis_pass2 selfL ys (vis_pass2 selfL xs res) := by
  induction xs generalizing res with
  | nil => rfl
  | cons fe rest ih =>
    obtain ⟨ofile, olints⟩ := fe
    cases hget : alGet selfL ofile with
    | some lints =>
      simp only [List.cons_append, vis_pass2, hget]
      exact ih (vis_olints lints olints res)
    | none =>
      simp only [List.cons_append, vis_pass2, hget]
      exact ih res

theorem vis_olints_of_covered (lints olints : LintCounts)
    (h : ∀ lc ∈ olints, containsKey lints lc.1 = true ∨ lc.2 = 0)
    (res : Relationship) : vis_olints lints olints res = res := by
  induction olints generalizing res with
  | nil => rfl
  | cons lc0 rest ih =>
    obtain ⟨l0, c0⟩ := lc0
    simp only [vis_olints]
    have hcond : ¬ (containsKey lints l0 = false ∧ 0 < c0) := by
      rcases h (l0, c0) (List.mem_cons_self _ _) with h1 | h1
      · intro hc; rw [h1] at hc; cases hc.1
      · intro hc; omega
    rw [if_neg hcond]
    exact ih (fun lc hlc => h lc (List.mem_cons_of_mem _ hlc)) res

/-! ### Updater lemmas -/

theorem shrinkEntry_keyfix (otherL : Ledger) (ex : List String)
    (e : String × LintCounts) : (shrinkEntry otherL ex e).1 = e.1 := by
  unfold shrinkEntry
  cases alGet otherL e.1 with
  | some oval => rfl
  | none =>
    by_cases hc : ex.contains e.1
    · rw [if_pos hc]
    · rw [if_neg hc]

theorem shrinkLint_keyfix (oval : LintCounts) (p : String × Nat) :
    (shrinkLint oval p).1 = p.1 := by
  unfold shrinkLint
  cases alGet oval p.1 <;> rfl

theorem effL_map_shrinkLint (oval m : LintCounts) (l : String) :
    effL (m.map (shrinkLint oval)) l = min (effL m l) (effL oval l) := by
  have hlmap := alGet_map_keyfix (shrinkLint oval) (shrinkLint_keyfix oval) m l
  cases hml : alGet m l with
  | some c =>
    rw [hml] at hlmap
    cases hol : alGet oval l with
    | some oc =>
      have hsl : shrinkLint oval (l, c) = (l, min c oc) := by
        simp [shrinkLint, hol]
      unfold effL
      rw [hlmap, hml]
      simp [hsl, effL, hol]
    | none =>
      have hsl : shrinkLint oval (l, c) = (l, 0) := by
        simp [shrinkLint, hol]
      unfold effL
      rw [hlmap, hml]
      simp [hsl, hol]
  | none =>
    rw [hml] at hlmap
    unfold effL
    rw [hlmap, hml]
    simp

theorem eff_shrink (baseL obsL : Ledger) (ex : List String)
    (hsub : ∀ f ∈ alKeys obsL, f ∈ ex) (f l : String) :
    eff (baseL.map (shrinkEntry obsL ex)) f l =
      if f ∈ alKeys baseL ∧ f ∈ ex then min (eff baseL f l) (eff obsL f l)
      else eff baseL f l := by
  have hmap := alGet_map_keyfix (shrinkEntry obsL ex) (shrinkEntry_keyfix obsL ex) baseL f
  cases hb : alGet baseL f with
  | none =>
    rw [hb] at hmap
    have hnotkey : f ∉ alKeys baseL := (alGet_eq_none_iff baseL f).1 hb
    rw [if_neg (fun hc => hnotkey hc.1)]
    simp [eff, hmap, hb]
  | some m =>
    rw [hb] at hmap
    have hkey : f ∈ alKeys baseL := mem_alKeys_of_alGet baseL f m hb
    cases ho : alGet obsL f with
    | some oval =>
      have hex : f ∈ ex := hsub f (mem_alKeys_of_alGet obsL f oval ho)
      rw [if_pos ⟨hkey, hex⟩]
      have hse : shrinkEntry obsL ex (f, m) = (f, m.map (shrinkLint oval)) := by
        simp [shrinkEntry, ho]
      have hget : alGet (baseL.map (shrinkEntry obsL ex)) f =
          some (m.map (shrinkLint oval)) := by
        rw [hmap]
        simp [hse]
      simp only [eff, hget, hb, ho]
      exact effL_map_shrinkLint oval m l
    | none =>
      have hobs0 : eff obsL f l = 0 := by simp [eff, ho]
      by_cases hex : f ∈ ex
      · rw [if_pos ⟨hkey, hex⟩]
        have hcont : ex.contains f = true := List.elem_eq_true_of_mem hex
        have hse : shrinkEntry obsL ex (f, m) = (f, []) := by
          simp only [shrinkEntry, ho, hcont]
          rfl
        have hget : alGet (baseL.map (shrinkEntry obsL ex)) f = some [] := by
          rw [hmap]
          simp [hse]
        rw [hobs0, Nat.min_zero]
        simp [eff, hget, effL, alGet]
      · rw [if_neg (fun hc => hex hc.2)]
        have hcont : ex.contains f = false := by simpa using hex
        have hse : shrinkEntry obsL ex (f, m) = (f, m) := by
          simp only [shrinkEntry, ho, hcont]
          rfl
        have hget : alGet (baseL.map (shrinkEntry obsL ex)) f = some m := by
          rw [hmap]
          simp [hse]
        simp [eff, hget, hb]

theorem effL_alInsert (m : LintCounts) (k : String) (v : Nat) (l : String) :
    effL (alInsert m k v) l = if l = k then v else effL m l := by
  unfold effL
  rw [alGet_alInsert]
  by_cases hlk : l = k
  · rw [if_pos hlk, if_pos hlk]
    rfl
  · rw [if_neg hlk, if_neg hlk]

theorem effL_growLints_mono (oval val : LintCounts) (l : String) :
    effL val l ≤ effL (growLints val oval) l := by
  induction oval generalizing val with
  | nil => exact le_refl _
  | cons p rest ih =>
    obtain ⟨l0, oc⟩ := p
    cases hg : alGet val l0 with
    | some c =>
      simp only [growLints, hg]
      refine le_trans ?_ (ih (alInsert val l0 (max c oc)))
      rw [effL_alInsert]
      by_cases hl : l = l0
      · subst hl
        rw [if_pos rfl]
        have : effL val l = c := by simp [effL, hg]
        omega
      · rw [if_neg hl]
    | none =>
      simp only [growLints, hg]
      refine le_trans ?_ (ih (alInsert val l0 oc))
      rw [effL_alInsert]
      by_cases hl : l = l0
      · subst hl
        rw [if_pos rfl]
        have : effL val l = 0 := by simp [effL, hg]
        omega
      · rw [if_neg hl]

theorem effL_growLints_eq (oval val : LintCounts)
    (hnd : (alKeys oval).Nodup) (l : String) :
    effL (growLints val oval) l = max (effL val l) (effL oval l) := by
  induction oval generalizing val with
  | nil => simp [growLints, effL, alGet]
  | cons p rest ih =>
    obtain ⟨l0, oc⟩ := p
    simp only [alKeys, List.map_cons, List.nodup_cons] at hnd
    have hrest0 : l0 ∉ alKeys rest := hnd.1
    have hval1 : ∀ val1 : LintCounts, effL (alInsert val1 l0 (max (effL val1 l0) oc)) l =
        if l = l0 then max (effL val1 l0) oc else effL val1 l := fun val1 =>
      effL_alInsert val1 l0 _ l
    have step : ∀ w, effL (growLints w rest) l = max (effL w l) (effL rest l) :=
      fun w => ih w hnd.2
    cases hg : alGet val l0 with
    | some c =>
      simp only [growLints, hg]
      rw [step]
      rw [effL_alInsert]
      by_cases hl : l = l0
      · subst hl
        rw [if_pos rfl]
        have hc : effL val l = c := by simp [effL, hg]
        have hr0 : effL rest l = 0 := by
          have : alGet rest l = none := (alGet_eq_none_iff rest l).2 hrest0
          simp [effL, this]
        have hcons : effL ((l, oc) :: rest) l = oc := by
          simp [effL, alGet_cons]
        rw [hr0, hc.symm, hcons]
        omega
      · rw [if_neg hl]
        have hcons : effL ((l0, oc) :: rest) l = effL rest l := by
          simp [effL, alGet_cons, hl]
        rw [hcons]
    | none =>
      simp only [growLints, hg]
      rw [step]
      rw [effL_alInsert]
      by_cases hl : l = l0
      · subst hl
        rw [if_pos rfl]
        have hc : effL val l = 0 := by simp [effL, hg]
        have hr0 : effL rest l = 0 := by
          have : alGet rest l = none := (alGet_eq_none_iff rest l).2 hrest0
          simp [effL, this]
        have hcons : effL ((l, oc) :: rest) l = oc := by
          simp [effL, alGet_cons]
        rw [hr0, hc, hcons]
        omega
      · rw [if_neg hl]
        have hcons : effL ((l0, oc) :: rest) l = effL rest l := by
          simp [effL, alGet_cons, hl]
        rw [hcons]

theorem eff_growStep_other (selfL : Ledger) (okey : String) (oval : LintCounts)
    (f l : String) (hf : f ≠ okey) :
    eff (growStep selfL okey oval) f l = eff selfL f l := by
  unfold growStep
  cases hs : alGet selfL okey with
  | some val => simp [eff, alGet_alInsert, hf]
  | none => simp [eff, alGet_alInsert, hf]

theorem eff_growStep_at (selfL : Ledger) (okey : String) (oval : LintCounts)
    (hnd : (alKeys oval).Nodup) (l : String) :
    eff (growStep selfL okey oval) okey l = max (eff selfL okey l) (effL oval l) := by
  unfold growStep
  cases hs : alGet selfL okey with
  | some val =>
    have hget : alGet (alInsert selfL okey (growLints val oval)) okey =
        some (growLints val oval) := by
      rw [alGet_alInsert]
      simp
    simp only [eff, hget, hs]
    exact effL_growLints_eq oval val hnd l
  | none =>
    have hget : alGet (alInsert selfL okey oval) okey = some oval := by
      rw [alGet_alInsert]
      simp
    simp only [eff, hget, hs]
    omega

theorem eff_growLoop_mono (otherL selfL : Ledger) (f l : String) :
    eff selfL f l ≤ eff (growLoop selfL otherL) f l := by
  induction otherL generalizing selfL with
  | nil => exact le_refl _
  | cons p rest ih =>
    obtain ⟨okey, oval⟩ := p
    simp only [growLoop]
    refine le_trans ?_ (ih (growStep selfL okey oval))
    by_cases hf : f = okey
    · subst hf
      unfold growStep
      cases hs : alGet selfL f with
      | some val =>
        have hget : alGet (alInsert selfL f (growLints val oval)) f =
            some (growLints val oval) := by
          rw [alGet_alInsert]
          simp
        simp only [eff, hget, hs]
        exact effL_growLints_mono oval val l
      | none =>
        have hget : alGet (alInsert selfL f oval) f = some oval := by
          rw [alGet_alInsert]
          simp
        simp only [eff, hget, hs]
        omega
    · rw [eff_growStep_other selfL okey oval f l hf]

theorem eff_growLoop_eq (otherL selfL : Ledger)
    (hnd : (alKeys otherL).Nodup) (hvals : ∀ e ∈ otherL, (alKeys e.2).Nodup)
    (f l : String) :
    eff (growLoop selfL otherL) f l = max (eff selfL f l) (eff otherL f l) := by
  induction otherL generalizing selfL with
  | nil => simp [growLoop, eff, alGet]
  | cons p rest ih =>
    obtain ⟨okey, oval⟩ := p
    simp only [alKeys, List.map_cons, List.nodup_cons] at hnd
    have hvo : (alKeys oval).Nodup := hvals (okey, oval) (List.mem_cons_self _ _)
    have hvrest : ∀ e ∈ rest, (alKeys e.2).Nodup :=
      fun e he => hvals e (List.mem_cons_of_mem _ he)
    simp only [growLoop]
    rw [ih (growStep selfL okey oval) hnd.2 hvrest]
    by_cases hf : f = okey
    · subst hf
      rw [eff_growStep_at selfL f oval hvo l]
      have hr0 : eff rest f l = 0 := by
        have : alGet rest f = none := (alGet_eq_none_iff rest f).2 hnd.1
        simp [eff, this]
      have hcons : eff ((f, oval) :: rest) f l = effL oval l := by
        rw [eff_cons, if_pos rfl]
      rw [hr0, hcons]
      omega
    · rw [eff_growStep_other selfL okey oval f l hf]
      have hcons : eff ((okey, oval) :: rest) f l = eff rest f l := by
        rw [eff_cons, if_neg hf]
      rw [hcons]

theorem eff_shrink_le (baseL obsL : Ledger) (ex : List String) (f l : String) :
    eff (baseL.map (shrinkEntry obsL ex)) f l ≤ eff baseL f l := by
  have hmap := alGet_map_keyfix (shrinkEntry obsL ex) (shrinkEntry_keyfix obsL ex) baseL f
  cases hb : alGet baseL f with
  | none =>
    rw [hb] at hmap
    simp [eff, hmap, hb]
  | some m =>
    rw [hb] at hmap
    cases ho : alGet obsL f with
    | some oval =>
      have hse : shrinkEntry obsL ex (f, m) = (f, m.map (shrinkLint oval)) := by
        simp [shrinkEntry, ho]
      have hget : alGet (baseL.map (shrinkEntry obsL ex)) f =
          some (m.map (shrinkLint oval)) := by
        rw [hmap]
        simp [hse]
      simp only [eff, hget, hb]
      rw [effL_map_shrinkLint]
      exact Nat.min_le_left _ _
    | none =>
      by_cases hcont : ex.contains f = true
      · have hse : shrinkEntry obsL ex (f, m) = (f, []) := by
          simp only [shrinkEntry, ho, hcont]
          rfl
        have hget : alGet (baseL.map (shrinkEntry obsL ex)) f = some [] := by
          rw [hmap]
          simp [hse]
        simp [eff, hget, hb, effL, alGet]
      · have hcont1 : ex.contains f = false := by
          cases h1 : ex.contains f
          · rfl
          · exact absurd h1 hcont
        have hse : shrinkEntry obsL ex (f, m) = (f, m) := by
          simp only [shrinkEntry, ho, hcont1]
          rfl
        have hget : alGet (baseL.map (shrinkEntry obsL ex)) f = some m := by
          rw [hmap]
          simp [hse]
        simp [eff, hget, hb]

theorem updateAnywaySet_iff (ua : Option String) :
    updateAnywaySet ua = true ↔ ua = some "1" := by
  cases ua with
  | none => simp [updateAnywaySet]
  | some v => simp [updateAnywaySet]

/-! ### Claim theorems -/

/-- Claim C1: for every Observed and Baseline ledger, if every file/lint
pair present in Observed is also present in Baseline with an observed count
less than or equal to the baseline count, then `vis_a_vis` returns
`ProperSubset` or `Expected`, never `NotASubset`. -/
theorem c1_subset_law (obs base : SupressedLints)
    (h : ∀ fe ∈ obs.lints, ∀ lc ∈ fe.2,
      ∃ m oc, alGet base.lints fe.1 = some m ∧ alGet m lc.1 = some oc ∧ lc.2 ≤ oc) :
    obs.vis_a_vis base = .ProperSubset ∨ obs.vis_a_vis base = .Expected := by
  obtain ⟨res1, heq, hres⟩ := vis_pass1_ok_of_le base.lints obs.lints h .Expected
  simp only [SupressedLints.vis_a_vis, heq]
  rcases vis_pass2_range obs.lints base.lints res1 with h2 | h2
  · rw [h2]
    rcases hres with h3 | h3
    · right; exact h3
    · left; exact h3
  · rw [h2]
    left; rfl

/-- Witness for C1 at a concrete improvement input. -/
theorem c1_subset_law_witness :
    SupressedLints.vis_a_vis ⟨[("a.rs", [("dead_code", 1)])]⟩
        ⟨[("a.rs", [("dead_code", 2)])]⟩ = .ProperSubset ∨
    SupressedLints.vis_a_vis ⟨[("a.rs", [("dead_code", 1)])]⟩
        ⟨[("a.rs", [("dead_code", 2)])]⟩ = .Expected :=
  c1_subset_law ⟨[("a.rs", [("dead_code", 1)])]⟩ ⟨[("a.rs", [("dead_code", 2)])]⟩
    (by
      intro fe hfe lc hlc
      rw [List.mem_singleton] at hfe
      subst hfe
      rw [List.mem_singleton] at hlc
      subst hlc
      exact ⟨[("dead_code", 2)], 2, rfl, rfl, by omega⟩)

/-- Claim C2: whenever the observed ledger holds a file/lint pair that
violates the baseline (a positive count the baseline lacks, or a count
strictly above the baseline count), `vis_a_vis` returns `NotASubset`; and
the verdict is already determined at the first such violating entry: every
later lint of that file and every later file can be replaced arbitrarily
without changing the result, capturing the source's early `return`. -/
theorem c2_first_violation (base : SupressedLints) (pre post post1 : Ledger)
    (f : String) (lpre lpost lpost1 : LintCounts) (l : String) (c : Nat)
    (hviol : violationAt base.lints f l c) :
    SupressedLints.vis_a_vis ⟨pre ++ (f, lpre ++ (l, c) :: lpost) :: post⟩ base
      = .NotASubset ∧
    SupressedLints.vis_a_vis ⟨pre ++ (f, lpre ++ (l, c) :: lpost) :: post⟩ base =
      SupressedLints.vis_a_vis ⟨pre ++ (f, lpre ++ (l, c) :: lpost1) :: post1⟩ base := by
  have hmem1 : (f, lpre ++ (l, c) :: lpost) ∈ pre ++ (f, lpre ++ (l, c) :: lpost) :: post := by
    simp
  have hmem2 : (f, lpre ++ (l, c) :: lpost1) ∈ pre ++ (f, lpre ++ (l, c) :: lpost1) :: post1 := by
    simp
  have h1 : vis_pass1 base.lints (pre ++ (f, lpre ++ (l, c) :: lpost) :: post) .Expected
      = .error .NotASubset :=
    vis_pass1_error_of_violation base.lints _
      ⟨(f, lpre ++ (l, c) :: lpost), hmem1, (l, c), by simp, hviol⟩ .Expected
  have h2 : vis_pass1 base.lints (pre ++ (f, lpre ++ (l, c) :: lpost1) :: post1) .Expected
      = .error .NotASubset :=
    vis_pass1_error_of_violation base.lints _
      ⟨(f, lpre ++ (l, c) :: lpost1), hmem2, (l, c), by simp, hviol⟩ .Expected
  constructor
  · simp only [SupressedLints.vis_a_vis, h1]
  · simp only [SupressedLints.vis_a_vis, h1, h2]

/-- Witness for C2: a count increase from 2 to 3 is a violation, and
the trailing ledger content is irrelevant. -/
theorem c2_first_violation_witness :
    SupressedLints.vis_a_vis ⟨[("a.rs", [("dead_code", 3)])]⟩
        ⟨[("a.rs", [("dead_code", 2)])]⟩ = .NotASubset ∧
    SupressedLints.vis_a_vis ⟨[("a.rs", [("dead_code", 3)])]⟩
        ⟨[("a.rs", [("dead_code", 2)])]⟩ =
      SupressedLints.vis_a_vis
        ⟨[("a.rs", [("dead_code", 3), ("unused_mut", 1)]), ("b.rs", [("x", 9)])]⟩
        ⟨[("a.rs", [("dead_code", 2)])]⟩ :=
  c2_first_violation ⟨[("a.rs", [("dead_code", 2)])]⟩ [] [] [("b.rs", [("x", 9)])]
    "a.rs" [] [] [("unused_mut", 1)] "dead_code" 3
    (Or.inr ⟨[("dead_code", 2)], 2, rfl, rfl, by omega⟩)

/-- Claim C7: for every baseline and observed ledger, shrinking never
raises any effective count and growing never lowers any effective count. -/
theorem c7_monotonicity (base obs : SupressedLints) (files : List String)
    (f l : String) :
    eff (SupressedLints.shrink_around base obs files).lints f l ≤ eff base.lints f l ∧
    eff base.lints f l ≤ eff (SupressedLints.grow_around base obs).lints f l :=
  ⟨eff_shrink_le base.lints obs.lints files f l,
   eff_growLoop_mono obs.lints base.lints f l⟩

/-- Claim C10: every lint count the scanner records is at least 1; a lint
key is never present in a scanned file's entry with value 0. -/
theorem c10_counts_positive (ast : SynFile) (l : String) (c : Nat)
    (h : alGet (count_suppressed_lints ast) l = some c) : 1 ≤ c :=
  allPos_count_suppressed_lints ast (l, c) (mem_of_alGet _ l c h)

/-- Witness for C10: the impl-block fixture records `dead_code` at 3 ≥ 1. -/
theorem c10_counts_positive_witness :
    alGet (count_suppressed_lints
      ⟨[], [.implI [⟨some "allow", some [some "dead_code"]⟩] 3]⟩) "dead_code"
      = some 3 ∧ 1 ≤ 3 :=
  ⟨rfl, c10_counts_positive
    ⟨[], [.implI [⟨some "allow", some [some "dead_code"]⟩] 3]⟩ "dead_code" 3 rfl⟩

/-- Counterexample to claim C3 as stated: a trait block with exactly 3
nested declarations and one block-level suppression of `dead_code` — the
claim's weight table (which lists trait blocks among the containers) demands
a count of 3, but the scanner passes weight 1 for `Item::Trait` and records
`dead_code` at 1. -/
theorem c3_weights_counterexample :
    effL (count_suppressed_lints
      ⟨[], [.traitI [⟨some "allow", some [some "dead_code"]⟩] 3]⟩) "dead_code" = 1 ∧
    (1 : Nat) ≠ 3 :=
  ⟨rfl, by omega⟩

/-- Amended claim C3: the scanner's count of every lint in every file equals
the blast-radius weighted count in which module, implementation and
foreign/extern blocks weigh `max(child_count, 1)`, the top-level attribute
list weighs `max(top_level_item_count, 1)`, and all other declarations —
including trait blocks — weigh 1; in particular an implementation block
with 3 methods and one block-level `dead_code` suppression yields
`dead_code ↦ 3`. -/
theorem c3_weights_amended :
    (∀ (ast : SynFile) (l : String),
      effL (count_suppressed_lints ast) l = specCountFile ast l) ∧
    count_suppressed_lints
      ⟨[], [.implI [⟨some "allow", some [some "dead_code"]⟩] 3]⟩
      = [("dead_code", 3)] :=
  ⟨effL_count_suppressed_lints, rfl⟩

/-- Claim C4: on a ProperSubset verdict the run persists the shrunk
baseline (exit code 2), and the shrunk baseline's effective counts are
`min(baselineCount, observedCount)` — an absent observed lint counting as
0 — for every file that is in the baseline and among the examined files,
while every other file's counts are unchanged.  `hsub` records that the
observed ledger only mentions examined files, as in `main`, where it is
built from `relevant_files`. -/
theorem c4_shrink_on_proper_subset (obs base : SupressedLints)
    (files : List String) (ua : Option String)
    (hsub : ∀ f ∈ alKeys obs.lints, f ∈ files)
    (hps : obs.vis_a_vis base = .ProperSubset) :
    mainUpdate obs base files ua = ⟨some (base.shrink_around obs files), 2⟩ ∧
    ∀ f l, eff (SupressedLints.shrink_around base obs files).lints f l =
      if f ∈ alKeys base.lints ∧ f ∈ files
      then min (eff base.lints f l) (eff obs.lints f l)
      else eff base.lints f l := by
  constructor
  · simp only [mainUpdate, hps]
  · intro f l
    exact eff_shrink base.lints obs.lints files hsub f l

/-- Witness for C4: the improvement scenario from the specification. -/
theorem c4_shrink_on_proper_subset_witness :
    mainUpdate ⟨[("a.rs", [("deprecated", 2)])]⟩ ⟨[("a.rs", [("deprecated", 5)])]⟩
      ["a.rs"] none = ⟨some ⟨[("a.rs", [("deprecated", 2)])]⟩, 2⟩ ∧
    eff (SupressedLints.shrink_around ⟨[("a.rs", [("deprecated", 5)])]⟩
      ⟨[("a.rs", [("deprecated", 2)])]⟩ ["a.rs"]).lints "a.rs" "deprecated" = 2 := by
  have h := c4_shrink_on_proper_subset ⟨[("a.rs", [("deprecated", 2)])]⟩
    ⟨[("a.rs", [("deprecated", 5)])]⟩ ["a.rs"] none (by decide) (by rfl)
  refine ⟨?_, ?_⟩
  · rw [h.1]
    rfl
  · rw [h.2 "a.rs" "deprecated"]
    decide

/-- Claim C5: on a NotASubset verdict the baseline is persisted exactly
when the override environment variable equals the literal string "1"; in
that case the persisted ledger is the grown baseline whose effective counts
are `max(existingCount, observedCount)` (new file and lint entries
included); and the exit code is 1 in every case. -/
theorem c5_override_grow (obs base : SupressedLints) (files : List String)
    (ua : Option String) (hwf : WFLedger obs.lints)
    (hna : obs.vis_a_vis base = .NotASubset) :
    ((mainUpdate obs base files ua).persisted ≠ none ↔ ua = some "1") ∧
    (ua = some "1" →
      (mainUpdate obs base files ua).persisted = some (base.grow_around obs) ∧
      ∀ f l, eff (SupressedLints.grow_around base obs).lints f l =
        max (eff base.lints f l) (eff obs.lints f l)) ∧
    (mainUpdate obs base files ua).exitCode = 1 := by
  have hmain : mainUpdate obs base files ua =
      if updateAnywaySet ua then ⟨some (base.grow_around obs), 1⟩ else ⟨none, 1⟩ := by
    simp only [mainUpdate, hna]
  by_cases hua : updateAnywaySet ua = true
  · have hua1 : ua = some "1" := (updateAnywaySet_iff ua).1 hua
    rw [hmain, if_pos hua]
    refine ⟨by simp [hua1], fun _ => ⟨rfl, ?_⟩, rfl⟩
    intro f l
    exact eff_growLoop_eq obs.lints base.lints hwf.1 hwf.2 f l
  · have hua1 : ua ≠ some "1" := fun h => hua ((updateAnywaySet_iff ua).2 h)
    rw [hmain, if_neg hua]
    exact ⟨by simp [hua1], fun h => absurd h hua1, rfl⟩

/-- Witness for C5: a regression with the override set grows and persists
the baseline and still exits 1. -/
theorem c5_override_grow_witness :
    (mainUpdate ⟨[("a.rs", [("dead_code", 3)])]⟩ ⟨[("a.rs", [("dead_code", 2)])]⟩
      ["a.rs"] (some "1")).persisted =
      some (SupressedLints.grow_around ⟨[("a.rs", [("dead_code", 2)])]⟩
        ⟨[("a.rs", [("dead_code", 3)])]⟩) ∧
    eff (SupressedLints.grow_around ⟨[("a.rs", [("dead_code", 2)])]⟩
      ⟨[("a.rs", [("dead_code", 3)])]⟩).lints "a.rs" "dead_code" = 3 ∧
    (mainUpdate ⟨[("a.rs", [("dead_code", 3)])]⟩ ⟨[("a.rs", [("dead_code", 2)])]⟩
      ["a.rs"] (some "1")).exitCode = 1 := by
  have h := c5_override_grow ⟨[("a.rs", [("dead_code", 3)])]⟩
    ⟨[("a.rs", [("dead_code", 2)])]⟩ ["a.rs"] (some "1") (by decide) (by rfl)
  refine ⟨(h.2.1 rfl).1, ?_, h.2.2⟩
  rw [(h.2.1 rfl).2 "a.rs" "dead_code"]
  decide

/-- Claim C6: a baseline entry for a file that is not among the examined
files (and hence not in the observed ledger) influences neither the verdict
nor the shrink update: removing it leaves the verdict unchanged, and the
shrink pass maps it to itself, whatever its counts. -/
theorem c6_untouched_file_frame (obs : SupressedLints) (pre post : Ledger)
    (b : String) (bl : LintCounts) (files : List String) (hb : b ∉ files)
    (hsub : ∀ f ∈ alKeys obs.lints, f ∈ files) :
    SupressedLints.vis_a_vis obs ⟨pre ++ (b, bl) :: post⟩ =
      SupressedLints.vis_a_vis obs ⟨pre ++ post⟩ ∧
    (SupressedLints.shrink_around ⟨pre ++ (b, bl) :: post⟩ obs files).lints =
      (SupressedLints.shrink_around ⟨pre⟩ obs files).lints ++ (b, bl) ::
      (SupressedLints.shrink_around ⟨post⟩ obs files).lints := by
  have hbobs : b ∉ alKeys obs.lints := fun h => hb (hsub b h)
  have hbnone : alGet obs.lints b = none := (alGet_eq_none_iff _ _).2 hbobs
  constructor
  · have hcongr : ∀ fe ∈ obs.lints,
        alGet (pre ++ (b, bl) :: post) fe.1 = alGet (pre ++ post) fe.1 := by
      intro fe hfe
      refine alGet_append_skip pre post b bl fe.1 (fun heq => hbobs ?_)
      rw [← heq]
      exact List.mem_map_of_mem Prod.fst hfe
    have hp1 := vis_pass1_congr (pre ++ (b, bl) :: post) (pre ++ post)
      obs.lints hcongr .Expected
    simp only [SupressedLints.vis_a_vis, hp1]
    cases h1 : vis_pass1 (pre ++ post) obs.lints .Expected with
    | error r => rfl
    | ok res =>
      show vis_pass2 obs.lints (pre ++ (b, bl) :: post) res =
        vis_pass2 obs.lints (pre ++ post) res
      rw [vis_pass2_append, vis_pass2_append]
      simp only [vis_pass2, hbnone]
  · have hentry : shrinkEntry obs.lints files (b, bl) = (b, bl) := by
      have h2 : files.contains b = false := by simpa using hb
      simp only [shrinkEntry, hbnone, h2]
      rfl
    simp only [SupressedLints.shrink_around, List.map_append, List.map_cons, hentry]

/-- Witness for C6: a `b.rs` baseline entry outside the examined files has
no effect on the verdict and survives the shrink untouched. -/
theorem c6_untouched_file_frame_witness :
    SupressedLints.vis_a_vis ⟨[("a.rs", [("x", 1)])]⟩ ⟨[("b.rs", [("y", 7)])]⟩ =
      SupressedLints.vis_a_vis ⟨[("a.rs", [("x", 1)])]⟩ ⟨[]⟩ ∧
    (SupressedLints.shrink_around ⟨[("b.rs", [("y", 7)])]⟩
      ⟨[("a.rs", [("x", 1)])]⟩ ["a.rs"]).lints =
      (SupressedLints.shrink_around ⟨[]⟩ ⟨[("a.rs", [("x", 1)])]⟩ ["a.rs"]).lints
        ++ ("b.rs", [("y", 7)]) ::
      (SupressedLints.shrink_around ⟨[]⟩ ⟨[("a.rs", [("x", 1)])]⟩ ["a.rs"]).lints :=
  c6_untouched_file_frame ⟨[("a.rs", [("x", 1)])]⟩ [] [] "b.rs" [("y", 7)]
    ["a.rs"] (by decide) (by decide)

/-! ### Re-run and abort lemmas -/

theorem vis_pass1_error_eq (baseL obsL : Ledger) (res r : Relationship)
    (h : vis_pass1 baseL obsL res = .error r) : r = .NotASubset := by
  induction obsL generalizing res with
  | nil => cases h
  | cons fe rest ih =>
    obtain ⟨f, ls⟩ := fe
    cases hb : alGet baseL f with
    | some m =>
      cases hv : vis_lints m ls res with
      | error r1 =>
        simp only [vis_pass1, hb, hv] at h
        injection h with h1
        rw [← h1]
        exact vis_lints_error_eq m ls res r1 hv
      | ok res2 =>
        simp only [vis_pass1, hb, hv] at h
        exact ih res2 h
    | none =>
      by_cases hlen : 0 < ls.length
      · simp only [vis_pass1, hb] at h
        rw [if_pos hlen] at h
        injection h with h1
        exact h1.symm
      · simp only [vis_pass1, hb] at h
        rw [if_neg hlen] at h
        exact ih res h

theorem vis_pass2_cons_some (selfL : Ledger) (p : String × LintCounts)
    (rest : Ledger) (res : Relationship) (lints : LintCounts)
    (h : alGet selfL p.1 = some lints) :
    vis_pass2 selfL (p :: rest) res =
      vis_pass2 selfL rest (vis_olints lints p.2 res) := by
  obtain ⟨a, b⟩ := p
  simp only [vis_pass2, h]

theorem vis_pass2_cons_none (selfL : Ledger) (p : String × LintCounts)
    (rest : Ledger) (res : Relationship) (h : alGet selfL p.1 = none) :
    vis_pass2 selfL (p :: rest) res = vis_pass2 selfL rest res := by
  obtain ⟨a, b⟩ := p
  simp only [vis_pass2, h]

theorem vis_pass2_shrunk (obsL baseL : Ledger) (files : List String)
    (res : Relationship) :
    vis_pass2 obsL (baseL.map (shrinkEntry obsL files)) res = res := by
  induction baseL generalizing res with
  | nil => rfl
  | cons e rest ih =>
    rw [List.map_cons]
    cases ho : alGet obsL e.1 with
    | some ls =>
      have hse : shrinkEntry obsL files e = (e.1, e.2.map (shrinkLint ls)) := by
        simp only [shrinkEntry, ho]
      rw [vis_pass2_cons_some obsL _ _ res ls
        (by rw [shrinkEntry_keyfix]; exact ho)]
      have hcov : ∀ lc ∈ e.2.map (shrinkLint ls),
          containsKey ls lc.1 = true ∨ lc.2 = 0 := by
        intro lc hlc
        obtain ⟨p0, hp0, hp0eq⟩ := List.mem_map.1 hlc
        subst hp0eq
        cases hsl : alGet ls p0.1 with
        | some oc =>
          left
          rw [shrinkLint_keyfix]
          simp [containsKey, hsl]
        | none =>
          right
          simp [shrinkLint, hsl]
      have hval : (shrinkEntry obsL files e).2 = e.2.map (shrinkLint ls) := by
        rw [hse]
      rw [hval, vis_olints_of_covered ls (e.2.map (shrinkLint ls)) hcov res]
      exact ih res
    | none =>
      rw [vis_pass2_cons_none obsL _ _ res (by rw [shrinkEntry_keyfix]; exact ho)]
      exact ih res

theorem vis_pass1_shrunk_ok (baseL obsL : Ledger) (files : List String)
    (L : Ledger)
    (hL : ∀ fe ∈ L,
      (∃ m, alGet baseL fe.1 = some m ∧
        (∀ lc ∈ fe.2, ∃ oc, alGet m lc.1 = some oc ∧ lc.2 ≤ oc) ∧
        alGet obsL fe.1 = some fe.2 ∧ (alKeys fe.2).Nodup) ∨
      (alGet baseL fe.1 = none ∧ fe.2 = []))
    (res : Relationship) :
    vis_pass1 (baseL.map (shrinkEntry obsL files)) L res = .ok res := by
  induction L generalizing res with
  | nil => rfl
  | cons fe rest ih =>
    obtain ⟨f, ls⟩ := fe
    have hrest : ∀ fe ∈ rest, _ := fun fe hfe => hL fe (List.mem_cons_of_mem _ hfe)
    have hmap := alGet_map_keyfix (shrinkEntry obsL files)
      (shrinkEntry_keyfix obsL files) baseL f
    rcases hL (f, ls) (List.mem_cons_self _ _) with ⟨m, hm, hle, hobs, hnd⟩ | ⟨hm, hls⟩
    · rw [hm] at hmap
      have hse : shrinkEntry obsL files (f, m) = (f, m.map (shrinkLint ls)) := by
        simp only [shrinkEntry, hobs]
      have hget : alGet (baseL.map (shrinkEntry obsL files)) f =
          some (m.map (shrinkLint ls)) := by
        rw [hmap]
        simp [hse]
      have heq : ∀ lc ∈ ls, alGet (m.map (shrinkLint ls)) lc.1 = some lc.2 := by
        intro lc hlc
        obtain ⟨oc, hoc, hlc2⟩ := hle lc hlc
        have hlm := alGet_map_keyfix (shrinkLint ls) (shrinkLint_keyfix ls) m lc.1
        rw [hoc] at hlm
        rw [hlm]
        have hgetls : alGet ls lc.1 = some lc.2 := alGet_of_nodup_mem ls hnd lc hlc
        have hsl : shrinkLint ls (lc.1, oc) = (lc.1, min oc lc.2) := by
          simp [shrinkLint, hgetls]
        simp [hsl, Nat.min_eq_right hlc2]
      have hvl := vis_lints_ok_of_eq (m.map (shrinkLint ls)) ls heq res
      simp only [vis_pass1, hget, hvl]
      exact ih hrest res
    · subst hls
      rw [hm] at hmap
      have hget : alGet (baseL.map (shrinkEntry obsL files)) f = none := by
        rw [hmap]
        rfl
      simp only [vis_pass1, hget, List.length_nil]
      rw [if_neg (by omega)]
      exact ih hrest res

theorem find_supressed_lints_append (fs : String → Option String)
    (parse : String → Except String SynFile) (xs ys : List String)
    (acc acc1 : SupressedLints)
    (h : find_supressed_lints fs parse xs acc = .ok acc1) :
    find_supressed_lints fs parse (xs ++ ys) acc =
      find_supressed_lints fs parse ys acc1 := by
  induction xs generalizing acc with
  | nil =>
    injection h with h1
    rw [h1]
    rfl
  | cons x rest ih =>
    by_cases hx : extIsRs x = true
    · simp only [find_supressed_lints, hx, if_true] at h ⊢
      cases hl : SupressedLints.load_suppressed_lints_from acc fs parse x with
      | ok acc2 =>
        rw [hl] at h
        exact ih acc2 h
      | error e =>
        rw [hl] at h
        simp at h
    · simp only [List.cons_append, find_supressed_lints, hx, if_false] at h ⊢
      exact ih acc h

theorem leadsList_append (n t : List Char) : leadsList n (n ++ t) = true := by
  induction n with
  | nil => rfl
  | cons a as ih => simp [leadsList, ih]

theorem occursIn_self_append (n post : List Char) : occursIn n (n ++ post) = true := by
  cases n with
  | nil =>
    cases post with
    | nil => rfl
    | cons b bs => simp [occursIn, leadsList]
  | cons a as =>
    have h := leadsList_append (a :: as) post
    simp only [List.cons_append] at h
    simp [occursIn, h]

theorem occursIn_cons (n : List Char) (b : Char) (bs : List Char) :
    occursIn n (b :: bs) = (leadsList n (b :: bs) || occursIn n bs) := rfl

theorem occursIn_middle (n pre post : List Char) :
    occursIn n (pre ++ n ++ post) = true := by
  induction pre with
  | nil => simpa using occursIn_self_append n post
  | cons p ps ih =>
    have hsplit : (p :: ps) ++ n ++ post = p :: (ps ++ n ++ post) := by simp
    rw [hsplit, occursIn_cons, ih, Bool.or_true]

theorem strOccurs_suffix (s t : String) : strOccurs t (s ++ t) = true := by
  unfold strOccurs
  rw [String.data_append s t]
  have h := occursIn_middle t.data s.data []
  rw [List.append_nil] at h
  exact h

/-- Counterexample to claim C8 as stated: scanning `a.rs` (whose sole item
is a function carrying a `dead_code` suppression — `parse` is instantiated
to the parser's result for that file) against an empty baseline yields
NotASubset and persists nothing, so re-running the cycle with the same file
list and the unchanged (empty) baseline yields NotASubset again, not
Expected. -/
theorem c8_idempotence_counterexample :
    mainModel (fun _ => some "src")
      (fun _ => .ok ⟨[], [.fnI [⟨some "allow", some [some "dead_code"]⟩]]⟩)
      ["a.rs"] ⟨[]⟩ none = .ok ⟨none, 1⟩ ∧
    (find_supressed_lints (fun _ => some "src")
      (fun _ => .ok ⟨[], [.fnI [⟨some "allow", some [some "dead_code"]⟩]]⟩)
      ["a.rs"] ⟨[]⟩).map (fun o => o.vis_a_vis ⟨[]⟩) = .ok .NotASubset ∧
    Relationship.NotASubset ≠ .Expected :=
  ⟨rfl, rfl, by decide⟩

/-- Amended claim C8: re-running the compare step with the same observed
ledger against the baseline as the previous run left it (unchanged on
Expected, shrunk and persisted on ProperSubset) yields Expected — provided
the previous verdict was not NotASubset.  `hwf` is the `BTreeMap`
well-formedness of the observed ledger, automatic in `main`. -/
theorem c8_idempotence_amended (obs base : SupressedLints)
    (files : List String) (ua : Option String) (hwf : WFLedger obs.lints)
    (hnot : obs.vis_a_vis base ≠ .NotASubset) :
    obs.vis_a_vis ((mainUpdate obs base files ua).persisted.getD base)
      = .Expected := by
  cases hv : obs.vis_a_vis base with
  | NotASubset => exact absurd hv hnot
  | Expected =>
    have hmain : mainUpdate obs base files ua = ⟨none, 0⟩ := by
      simp only [mainUpdate, hv]
    rw [hmain]
    exact hv
  | ProperSubset =>
    have hmain : mainUpdate obs base files ua =
        ⟨some (base.shrink_around obs files), 2⟩ := by
      simp only [mainUpdate, hv]
    rw [hmain]
    show obs.vis_a_vis (base.shrink_around obs files) = .Expected
    have hv1 := hv
    unfold SupressedLints.vis_a_vis at hv1
    cases h1 : vis_pass1 base.lints obs.lints .Expected with
    | error r =>
      have hr := vis_pass1_error_eq base.lints obs.lints .Expected r h1
      subst hr
      simp only [h1] at hv1
      cases hv1
    | ok res1 =>
      have hfacts := vis_pass1_ok_inv base.lints obs.lints .Expected res1 h1
      have hL : ∀ fe ∈ obs.lints,
          (∃ m, alGet base.lints fe.1 = some m ∧
            (∀ lc ∈ fe.2, ∃ oc, alGet m lc.1 = some oc ∧ lc.2 ≤ oc) ∧
            alGet obs.lints fe.1 = some fe.2 ∧ (alKeys fe.2).Nodup) ∨
          (alGet base.lints fe.1 = none ∧ fe.2 = []) := by
        intro fe hfe
        rcases hfacts fe hfe with ⟨m, hm, hle⟩ | hB
        · exact Or.inl ⟨m, hm, hle,
            alGet_of_nodup_mem obs.lints hwf.1 fe hfe, hwf.2 fe hfe⟩
        · exact Or.inr hB
      have hp1 := vis_pass1_shrunk_ok base.lints obs.lints files obs.lints hL .Expected
      have hp2 := vis_pass2_shrunk obs.lints base.lints files .Expected
      show (match vis_pass1 (base.lints.map (shrinkEntry obs.lints files))
          obs.lints .Expected with
        | .error r => r
        | .ok res => vis_pass2 obs.lints
            (base.lints.map (shrinkEntry obs.lints files)) res) = .Expected
      rw [hp1]
      exact hp2

/-- Witness for amended C8: an improvement run shrinks the baseline and a
re-run against the shrunk baseline is Expected. -/
theorem c8_idempotence_amended_witness :
    SupressedLints.vis_a_vis ⟨[("a.rs", [("dead_code", 1)])]⟩
      ((mainUpdate ⟨[("a.rs", [("dead_code", 1)])]⟩
        ⟨[("a.rs", [("dead_code", 2)])]⟩ ["a.rs"] none).persisted.getD
          ⟨[("a.rs", [("dead_code", 2)])]⟩) = .Expected :=
  c8_idempotence_amended ⟨[("a.rs", [("dead_code", 1)])]⟩
    ⟨[("a.rs", [("dead_code", 2)])]⟩ ["a.rs"] none
    (by decide) (by decide)

/-- Amended claim C9: a parse failure in any scanned `.rs` file aborts the
whole run before any comparison or persistence — the run's only outcome is
the `unwrap` panic message — and that message surfaces the underlying parse
failure verbatim; it does not, however, name the offending file (see the
counterexample). -/
theorem c9_parse_abort_amended (fs : String → Option String)
    (parse : String → Except String SynFile) (pre post : List String)
    (f : String) (acc : SupressedLints) (contents e : String)
    (hpre : find_supressed_lints fs parse pre ⟨[]⟩ = .ok acc)
    (hext : extIsRs f = true) (hfs : fs f = some contents)
    (hparse : parse contents = .error e)
    (base : SupressedLints) (ua : Option String) :
    mainModel fs parse (pre ++ f :: post) base ua = .error (unwrapPanicMsg e) ∧
    strOccurs e (unwrapPanicMsg e) = true := by
  have hload : SupressedLints.load_suppressed_lints_from acc fs parse f =
      .error (unwrapPanicMsg e) := by
    simp only [SupressedLints.load_suppressed_lints_from, hfs, hparse]
  have hstep : find_supressed_lints fs parse (f :: post) acc =
      .error (unwrapPanicMsg e) := by
    simp only [find_supressed_lints, hext, if_true, hload]
  have hfind := find_supressed_lints_append fs parse pre (f :: post) ⟨[]⟩ acc hpre
  rw [hstep] at hfind
  constructor
  · simp only [mainModel, hfind]
  · exact strOccurs_suffix "called `Result::unwrap()` on an `Err` value: " e

/-- Witness for amended C9 at a concrete failing scan. -/
theorem c9_parse_abort_amended_witness :
    mainModel (fun _ => some "bad source") (fun _ => .error "LexError")
      ["bad_file.rs"] ⟨[]⟩ none = .error (unwrapPanicMsg "LexError") ∧
    strOccurs "LexError" (unwrapPanicMsg "LexError") = true :=
  c9_parse_abort_amended (fun _ => some "bad source")
    (fun _ => .error "LexError") [] [] "bad_file.rs" ⟨[]⟩ "bad source"
    "LexError" rfl (by decide) rfl rfl ⟨[]⟩ none

/-- Counterexample to claim C9 as stated: the run scanning `bad_file.rs`
aborts with the `unwrap` panic message, but that message does not contain
the offending file's name — `unwrap` only prints the parse error. -/
theorem c9_parse_abort_counterexample :
    mainModel (fun _ => some "bad source") (fun _ => .error "LexError")
      ["bad_file.rs"] ⟨[]⟩ none = .error (unwrapPanicMsg "LexError") ∧
    strOccurs "bad_file.rs" (unwrapPanicMsg "LexError") = false :=
  ⟨rfl, rfl⟩

end WarningRatchet
